import Mathlib

/-
Verification of the sequencing-pipeline specification of the zksync-era node
against the repository sources.  The repository snapshot contains the
component wiring (core/bin/zksync_core/src/lib.rs) and the blocks DAL
(core/lib/dal/src/blocks_web3_dal.rs); the mempool, state-keeper and
miniblock-sealer internals are referenced from the wiring but their source
files are not part of the snapshot, so those components are modelled from
the specification text, as marked on each definition.
-/

set_option maxRecDepth 8192

namespace ZkSyncCore

/-- An L2 transaction identity: sender and the per-sender sequence number
(nonce).  The payload is irrelevant to the ordering claims and is omitted. -/
structure L2Tx where
  sender : Nat
  nonce : Nat
deriving DecidableEq

/-- A pending transaction: an ordinary L2 transaction, or an L1-originated
priority operation carrying its monotonic priority id. -/
inductive Tx
  | l2 (t : L2Tx)
  | priority (id : Nat)
deriving DecidableEq

/-- Modelled from the spec: the error with which `insert` fails when the
mempool has no remaining capacity. -/
inductive MempoolError
  | Full
deriving DecidableEq

/-- Modelled from the spec (section 3 and 4.1): the bounded mempool, missing
from the snapshot (only its construction site `MempoolGuard::new` is in
`lib.rs`).  It is partitioned into a priority-operation queue (total order by
priority id, with `nextPriorityId` the watermark of the next id to execute)
and a per-sender set of nonce-ordered L2 transactions; `nonces` records the
next-unexecuted nonce per sender (default 0). -/
structure Mempool where
  capacity : Nat
  nextPriorityId : Nat
  priorityOps : List Nat
  l2txs : List L2Tx
  nonces : List (Nat × Nat)
deriving DecidableEq

/-- A fresh mempool with a given capacity and priority-id watermark. -/
def Mempool.mk0 (cap w : Nat) : Mempool :=
  { capacity := cap, nextPriorityId := w, priorityOps := [], l2txs := [], nonces := [] }

/-- Association-list lookup for the per-sender nonce table. -/
def lookupNonce : List (Nat × Nat) → Nat → Option Nat
  | [], _ => none
  | (k, v) :: rest, s => if k = s then some v else lookupNonce rest s

/-- Drop the entries of one sender from the nonce table. -/
def removeSender : List (Nat × Nat) → Nat → List (Nat × Nat)
  | [], _ => []
  | (k, v) :: rest, s =>
    if k = s then removeSender rest s else (k, v) :: removeSender rest s

/-- Update the per-sender nonce table at one sender. -/
def setNonce (l : List (Nat × Nat)) (s n : Nat) : List (Nat × Nat) :=
  (s, n) :: removeSender l s

/-- The next-unexecuted nonce recorded for a sender (0 when unknown). -/
def Mempool.expectedNonce (m : Mempool) (s : Nat) : Nat :=
  match lookupNonce m.nonces s with
  | some n => n
  | none => 0

/-- Number of transactions held by the mempool. -/
def Mempool.size (m : Mempool) : Nat :=
  m.priorityOps.length + m.l2txs.length

/-- Modelled from the spec: the duplicate test used by `insert` for
idempotency — an L2 transaction with the same sender and nonce already
present (or already executed, nonce below the sender watermark), or a
priority operation with the same id already present or already executed
(id below the priority-id watermark). -/
def Mempool.isDup (m : Mempool) : Tx → Bool
  | .l2 t => decide (t ∈ m.l2txs) || decide (t.nonce < m.expectedNonce t.sender)
  | .priority id => decide (id ∈ m.priorityOps) || decide (id < m.nextPriorityId)

/-- Add a transaction to the corresponding partition. -/
def Mempool.addTx (m : Mempool) : Tx → Mempool
  | .l2 t => { m with l2txs := t :: m.l2txs }
  | .priority id => { m with priorityOps := id :: m.priorityOps }

/-- Modelled from the spec (4.1): `insert` is a no-op success for an
already-present transaction, fails with `Full` at capacity, and otherwise
adds the transaction. -/
def Mempool.insert (m : Mempool) (tx : Tx) : Except MempoolError Mempool :=
  if m.isDup tx then .ok m
  else if m.capacity ≤ m.size then .error .Full
  else .ok (m.addTx tx)

/-- First L2 transaction whose nonce equals its sender's expected nonce. -/
def findEligible (expected : Nat → Nat) : List L2Tx → Option L2Tx
  | [] => none
  | t :: rest =>
    if t.nonce = expected t.sender then some t else findEligible expected rest

/-- Remove the first occurrence of an L2 transaction. -/
def removeFirst (t : L2Tx) : List L2Tx → List L2Tx
  | [] => []
  | u :: rest => if u = t then rest else u :: removeFirst t rest

/-- Modelled from the spec (4.1): hand out the next eligible transaction.
Priority operations are delivered strictly in ascending priority-id order
(the watermark id first, draining before L2 traffic); otherwise, for some
sender, the transaction at that sender's next-unexecuted nonce.  Taking a
transaction removes it from the pool and advances the corresponding
watermark or sender nonce. -/
def Mempool.takeNext (m : Mempool) : Option (Tx × Mempool) :=
  if m.nextPriorityId ∈ m.priorityOps then
    some (.priority m.nextPriorityId,
      { m with priorityOps := m.priorityOps.filter (fun j => decide (j ≠ m.nextPriorityId)),
               nextPriorityId := m.nextPriorityId + 1 })
  else
    match findEligible m.expectedNonce m.l2txs with
    | some t =>
      some (.l2 t,
        { m with l2txs := removeFirst t m.l2txs,
                 nonces := setNonce m.nonces t.sender (t.nonce + 1) })
    | none => none

/-- Modelled from the spec (4.1): return a checked-out-but-not-committed
transaction to the eligible pool, preserving order: an L2 transaction
re-enters the pool and its sender's expected nonce rewinds to it; a priority
operation re-enters the queue and the priority watermark rewinds to its id. -/
def Mempool.rollback (m : Mempool) : Tx → Mempool
  | .l2 t => { m with l2txs := t :: m.l2txs, nonces := setNonce m.nonces t.sender t.nonce }
  | .priority id => { m with priorityOps := id :: m.priorityOps, nextPriorityId := id }

/-- Modelled from the spec (4.1): eviction of a stale pending transaction by
the feeder.  It removes a pending entry and touches no watermark. -/
def Mempool.evict (m : Mempool) (t : L2Tx) : Mempool :=
  { m with l2txs := removeFirst t m.l2txs }

/-- One mempool operation of a client trace: an insertion, a take (removal
for execution) or an eviction (removal as stale). -/
inductive MOp
  | ins (tx : Tx)
  | take
  | evict (t : L2Tx)
deriving DecidableEq

/-- One step of a mempool trace; the second component logs every transaction
the mempool has returned for execution, in delivery order. -/
def mstep (s : Mempool × List Tx) (op : MOp) : Mempool × List Tx :=
  match op with
  | .ins tx =>
    match s.1.insert tx with
    | .ok m' => (m', s.2)
    | .error _ => s
  | .take =>
    match s.1.takeNext with
    | some (tx, m') => (m', s.2 ++ [tx])
    | none => s
  | .evict t => (s.1.evict t, s.2)

/-- Run a trace of mempool operations from a given initial mempool. -/
def mrun (m : Mempool) (ops : List MOp) : Mempool × List Tx :=
  ops.foldl mstep (m, [])

/-- The nonces delivered for one sender, in delivery order. -/
def deliveredForSender (out : List Tx) (s : Nat) : List Nat :=
  out.filterMap (fun tx =>
    match tx with
    | .l2 t => if t.sender = s then some t.nonce else none
    | .priority _ => none)

/-- The priority ids delivered, in delivery order. -/
def deliveredPriorityIds (out : List Tx) : List Nat :=
  out.filterMap (fun tx =>
    match tx with
    | .l2 _ => none
    | .priority id => some id)

/-- Maximum of a list of numbers, `none` on the empty list: the shallow
embedding of the SQL aggregate `MAX(number)`. -/
def maxOf : List Nat → Option Nat
  | [] => none
  | x :: xs =>
    match maxOf xs with
    | none => some x
    | some m => some (max x m)

/-- Minimum of a list of numbers, `none` on the empty list: the shallow
embedding of the SQL aggregate `MIN(number)`. -/
def minOf : List Nat → Option Nat
  | [] => none
  | x :: xs =>
    match minOf xs with
    | none => some x
    | some m => some (min x m)

/-- Modelled from the spec: the DAL query `next_priority_id` (called at the
state-keeper construction site in `lib.rs` but itself missing from the
snapshot) — one past the last durably-recorded priority id, 0 when no
priority operation was ever recorded. -/
def next_priority_id (recorded : List Nat) : Nat :=
  match maxOf recorded with
  | none => 0
  | some m => m + 1

/-- Insert a list of transactions in order, ignoring individual failures. -/
def insertAllM (m : Mempool) : List Tx → Mempool
  | [] => m
  | tx :: rest =>
    match m.insert tx with
    | .ok m' => insertAllM m' rest
    | .error _ => insertAllM m rest

/-- Modelled from the spec (section 6/7): the classification of one VM
execution outcome — success, a permanent rejection, or a transient/resource
failure. -/
inductive ExecClass
  | success
  | permanent
  | transient
deriving DecidableEq

/-- Whether an optional limit is reached by a value (an absent limit never
fires). -/
def hits (limit : Option Nat) (v : Nat) : Bool :=
  match limit with
  | none => false
  | some k => decide (k ≤ v)

/-- Modelled from the spec (4.3): the sequencer state — the mempool it
consumes, the accumulating current ExecutionUnit, the units sealed so far
and the permanently rejected transactions. -/
structure SeqState where
  mempool : Mempool
  current : List Tx
  sealedUnits : List (List Tx)
  rejected : List Tx
deriving DecidableEq

/-- The sequencer state at process start. -/
def SeqState.start (cap w : Nat) : SeqState :=
  ⟨Mempool.mk0 cap w, [], [], []⟩

/-- Modelled from the spec (4.3, steps 1–4): one sequencer step.  Take the
next eligible transaction; on success append it to the current unit and seal
when the unit tx-count criterion fires; on a permanent failure drop it and
record the rejection; on a transient/resource failure return it to the
mempool via `rollback` and immediately force-seal the current unit (which
therefore excludes the failed transaction).  The second component is the
unit sealed by this step, if any. -/
def seqTick (exec : Tx → ExecClass) (unitMaxTxs : Option Nat) (st : SeqState) :
    SeqState × Option (List Tx) :=
  match st.mempool.takeNext with
  | none => (st, none)
  | some (tx, m') =>
    match exec tx with
    | .permanent =>
      ({ st with mempool := m', rejected := st.rejected ++ [tx] }, none)
    | .transient =>
      ({ st with mempool := m'.rollback tx, current := [],
                 sealedUnits := st.sealedUnits ++ [st.current] }, some st.current)
    | .success =>
      if hits unitMaxTxs (st.current ++ [tx]).length then
        ({ st with mempool := m', current := [],
                   sealedUnits := st.sealedUnits ++ [st.current ++ [tx]] },
          some (st.current ++ [tx]))
      else
        ({ st with mempool := m', current := st.current ++ [tx] }, none)

/-- One pipeline event: the feeder inserts a transaction, the sequencer
performs a step, or the feeder evicts a stuck transaction. -/
inductive POp
  | feed (tx : Tx)
  | tick
  | evictStuck (t : L2Tx)
deriving DecidableEq

/-- One pipeline transition. -/
def pstep (exec : Tx → ExecClass) (unitMaxTxs : Option Nat) (st : SeqState)
    (op : POp) : SeqState :=
  match op with
  | .feed tx =>
    match st.mempool.insert tx with
    | .ok m' => { st with mempool := m' }
    | .error _ => st
  | .tick => (seqTick exec unitMaxTxs st).1
  | .evictStuck t => { st with mempool := st.mempool.evict t }

/-- Run a pipeline event trace. -/
def runP (exec : Tx → ExecClass) (unitMaxTxs : Option Nat) (st0 : SeqState)
    (ops : List POp) : SeqState :=
  ops.foldl (pstep exec unitMaxTxs) st0

/-- The pipeline state after a trace from process start. -/
def afterOps (exec : Tx → ExecClass) (unitMaxTxs : Option Nat) (cap w : Nat)
    (ops : List POp) : SeqState :=
  runP exec unitMaxTxs (SeqState.start cap w) ops

/-- First pending L2 transaction of a sender at a given nonce. -/
def firstForSender (expected s : Nat) : List L2Tx → Option L2Tx
  | [] => none
  | t :: rest =>
    if t.sender = s ∧ t.nonce = expected then some t else firstForSender expected s rest

/-- The eligible (next-nonce) pending transaction of one sender. -/
def Mempool.nextForSender (m : Mempool) (s : Nat) : Option L2Tx :=
  firstForSender (m.expectedNonce s) s m.l2txs

/-- The pending L2 transactions of one sender, in pool order. -/
def sendersTxs (s : Nat) : List L2Tx → List L2Tx
  | [] => []
  | t :: rest =>
    if t.sender = s then t :: sendersTxs s rest else sendersTxs s rest

/-- The mempool state attributable to one sender: its expected nonce and its
pending transactions. -/
def Mempool.senderView (m : Mempool) (s : Nat) : Nat × List L2Tx :=
  (m.expectedNonce s, sendersTxs s m.l2txs)

/-- A transaction already consumed by the mempool: its nonce is below its
sender's expected nonce, or its priority id is below the watermark. -/
def txBelow (m : Mempool) : Tx → Prop
  | .l2 u => u.nonce < m.expectedNonce u.sender
  | .priority id => id < m.nextPriorityId

/-- Every transaction of the current unit has already been consumed by the
mempool. -/
def CurrentOK (st : SeqState) : Prop :=
  ∀ tx ∈ st.current, txBelow st.mempool tx

/-- Modelled from the spec (4.4): the unit-level statistics the seal policy
consults after every executed transaction. -/
structure UnitStats where
  txCount : Nat
  elapsed : Nat
  cost : Nat
deriving DecidableEq

/-- Modelled from the spec (4.4): the batch-level statistics the seal policy
consults. -/
structure BatchStats where
  payload : Nat
  circuits : Nat
  unitCount : Nat
deriving DecidableEq

/-- Modelled from the spec (section 6): the recognized seal-policy limits;
`none` means the criterion is not binding. -/
structure SealCfg where
  unitMaxTime : Option Nat
  unitMaxTxs : Option Nat
  unitMaxCost : Option Nat
  batchMaxPayload : Option Nat
  batchMaxCircuits : Option Nat
  batchMaxUnits : Option Nat
deriving DecidableEq

/-- Modelled from the spec (4.4): the three-valued seal decision. -/
inductive SealDecision
  | Continue
  | SealUnit
  | SealUnitAndBatch
deriving DecidableEq

/-- Modelled from the spec (4.4): a pure function of the accumulated
statistics; criteria are evaluated independently and whichever fires wins,
with batch-level sealing taking the tie-break over unit-level sealing. -/
def sealDecision (cfg : SealCfg) (u : UnitStats) (b : BatchStats) : SealDecision :=
  if hits cfg.batchMaxPayload b.payload || hits cfg.batchMaxCircuits b.circuits ||
      hits cfg.batchMaxUnits b.unitCount then .SealUnitAndBatch
  else if hits cfg.unitMaxTime u.elapsed || hits cfg.unitMaxTxs u.txCount ||
      hits cfg.unitMaxCost u.cost then .SealUnit
  else .Continue

/-- The resource footprint one executed transaction contributes to the
accumulated statistics. -/
structure Footprint where
  time : Nat
  cost : Nat
  payload : Nat
  circuits : Nat

/-- The all-zero unit statistics of a fresh unit. -/
def UnitStats.zero : UnitStats := ⟨0, 0, 0⟩

/-- The all-zero batch statistics of a fresh batch. -/
def BatchStats.zero : BatchStats := ⟨0, 0, 0⟩

/-- Accumulator of the sequencer's seal loop. -/
structure RunAcc (α : Type) where
  current : List α
  ustats : UnitStats
  bstats : BatchStats
  units : List (List α)

/-- Modelled from the spec (4.3 step 4): append one executed transaction to
the current unit, then consult the seal policy with the updated statistics
and seal accordingly. -/
def applyTx {α : Type} (cfg : SealCfg) (f : α → Footprint) (acc : RunAcc α)
    (tx : α) : RunAcc α :=
  let u : UnitStats :=
    ⟨acc.ustats.txCount + 1, acc.ustats.elapsed + (f tx).time,
      acc.ustats.cost + (f tx).cost⟩
  let b : BatchStats :=
    ⟨acc.bstats.payload + (f tx).payload, acc.bstats.circuits + (f tx).circuits,
      acc.bstats.unitCount⟩
  match sealDecision cfg u b with
  | .Continue => { acc with current := acc.current ++ [tx], ustats := u, bstats := b }
  | .SealUnit =>
    { current := [], ustats := UnitStats.zero,
      bstats := { b with unitCount := b.unitCount + 1 },
      units := acc.units ++ [acc.current ++ [tx]] }
  | .SealUnitAndBatch =>
    { current := [], ustats := UnitStats.zero, bstats := BatchStats.zero,
      units := acc.units ++ [acc.current ++ [tx]] }

/-- Modelled from the spec (4.3): feed a stream of successfully executing
transactions through the sequencer's seal loop; a trailing non-empty unit is
force-sealed by the idle timeout (4.3 step 5).  Returns the sealed units in
order. -/
def runSeq {α : Type} (cfg : SealCfg) (f : α → Footprint) (txs : List α) :
    List (List α) :=
  let acc := txs.foldl (applyTx cfg f) ⟨[], UnitStats.zero, BatchStats.zero, []⟩
  match acc.current with
  | [] => acc.units
  | _ => acc.units ++ [acc.current]

/-- The seal configuration with only the unit tx-count criterion binding. -/
def cfgTxCount (k : Nat) : SealCfg := ⟨none, some k, none, none, none, none⟩

/-- Modelled from the spec (4.5): the sealing writer, missing from the
snapshot (only the `MiniblockSealer::new` construction site is in `lib.rs`):
a bounded FIFO queue of seal commands.  `accepted` is the bookkeeping record
of the commands successfully enqueued, in order; `persisted` is what the
writer has durably written, in order. -/
structure Writer (α : Type) where
  capacity : Nat
  queue : List α
  persisted : List α
  accepted : List α

/-- One writer event: the sequencer enqueues a command (blocked, hence a
no-op, when the queue is full), or the writer dequeues the oldest command
and persists it. -/
inductive WOp (α : Type)
  | enq (c : α)
  | deq

/-- Modelled from the spec (4.5): one transition of the sealing writer. -/
def wStep {α : Type} (w : Writer α) : WOp α → Writer α
  | .enq c =>
    if w.capacity ≤ w.queue.length then w
    else { w with queue := w.queue ++ [c], accepted := w.accepted ++ [c] }
  | .deq =>
    match w.queue with
    | [] => w
    | c :: rest => { w with queue := rest, persisted := w.persisted ++ [c] }

/-- Run a writer event trace. -/
def wRun {α : Type} (w : Writer α) (ops : List (WOp α)) : Writer α :=
  ops.foldl wStep w

/-- An idle sealing writer with the given queue capacity. -/
def Writer.start {α : Type} (cap : Nat) : Writer α := ⟨cap, [], [], []⟩

/-- Embedded from `get_sealed_miniblock_number` (blocks_web3_dal.rs, lines
31–40): `SELECT MAX(number) FROM miniblocks`; the table is a list of
persisted miniblock numbers and `none` models the pre-genesis panic
(`expect("DAL invocation before genesis")`). -/
def get_sealed_miniblock_number (miniblocks : List Nat) : Option Nat :=
  maxOf miniblocks

/-- Embedded from `get_sealed_l1_batch_number` (blocks_web3_dal.rs, lines
42–51): `SELECT MAX(number) FROM l1_batches`, with `none` again modelling
the pre-genesis panic. -/
def get_sealed_l1_batch_number (l1Batches : List Nat) : Option Nat :=
  maxOf l1Batches

/-- Durable storage as seen by the sequencer's restart logic: the persisted
miniblock numbers and the persisted L1-batch numbers. -/
structure DurableStore where
  miniblocks : List Nat
  l1Batches : List Nat

/-- The sequencer's in-memory numbering counters. -/
structure SeqCounters where
  lastUnit : Nat
  lastBatch : Nat
deriving DecidableEq

/-- Modelled from the spec (4.3/4.5, the state-keeper initialization being
missing from the snapshot): at restart the next unit and batch numbers are
recovered solely from durable storage via the two embedded MAX queries —
never from in-memory state, which this function does not even receive. -/
def recoverCounters (s : DurableStore) : Option SeqCounters :=
  match get_sealed_miniblock_number s.miniblocks,
      get_sealed_l1_batch_number s.l1Batches with
  | some u, some b => some ⟨u, b⟩
  | _, _ => none

/-- Modelled from the spec (4.3 step 4): one seal.  The ExecutionUnit being
sealed is assigned the next unit number (one past the last) and persisted
durably; when the seal also marks a batch boundary (the `Bool` argument,
spec: "if it additionally signals seal batch, mark the batch boundary on
that same SealCommand"), the closed batch is assigned the next batch number
and persisted durably as well.  The step returns the assigned unit number,
the batch number when a batch was closed, and the updated store and
counters. -/
def sealStep (s : DurableStore) (c : SeqCounters) :
    Bool → (Nat × Option Nat) × DurableStore × SeqCounters
  | true =>
    ((c.lastUnit + 1, some (c.lastBatch + 1)),
      { miniblocks := s.miniblocks ++ [c.lastUnit + 1],
        l1Batches := s.l1Batches ++ [c.lastBatch + 1] },
      ⟨c.lastUnit + 1, c.lastBatch + 1⟩)
  | false =>
    ((c.lastUnit + 1, none),
      { s with miniblocks := s.miniblocks ++ [c.lastUnit + 1] },
      { c with lastUnit := c.lastUnit + 1 })

/-- A sequence of seals, one per flag (the flag telling whether that seal
also closes the current batch), returning the assigned (unit, batch?)
numbers in order together with the final store and counters. -/
def sealRun : List Bool → DurableStore → SeqCounters →
    List (Nat × Option Nat) × DurableStore × SeqCounters
  | [], s, c => ([], s, c)
  | flag :: rest, s, c =>
    let r := sealStep s c flag
    let rr := sealRun rest r.2.1 r.2.2
    (r.1 :: rr.1, rr.2.1, rr.2.2)

/-- The number of batch-closing seals of a flag sequence. -/
def countTrue : List Bool → Nat
  | [] => 0
  | true :: rest => countTrue rest + 1
  | false :: rest => countTrue rest

/-- The numbers assigned by a given count of consecutive seals after a given
last number: last+1, last+2, …. -/
def nextNumbers : Nat → Nat → List Nat
  | 0, _ => []
  | n + 1, last => (last + 1) :: nextNumbers n (last + 1)

/-- A row of the miniblocks table, with the attributes the embedded queries
touch (hashes are modelled as numbers). -/
structure MiniblockRow where
  number : Nat
  hash : Nat
  l1BatchNumber : Option Nat
deriving DecidableEq

/-- The miniblocks table. -/
abbrev MiniblockTable := List MiniblockRow

/-- The web3 block-number selector (api::BlockNumber). -/
inductive BlockNumber
  | Committed
  | Finalized
  | Latest
  | Earliest
  | Pending
  | Number (n : Nat)
deriving DecidableEq

/-- The web3 block id (api::BlockId): by hash or by number selector. -/
inductive BlockId
  | Hash (h : Nat)
  | Number (bn : BlockNumber)
deriving DecidableEq

/-- First row with a given hash: `SELECT number FROM miniblocks WHERE hash = $1`. -/
def firstRowHash (h : Nat) : MiniblockTable → Option MiniblockRow
  | [] => none
  | r :: rest => if r.hash = h then some r else firstRowHash h rest

/-- First row with a given number: `SELECT number FROM miniblocks WHERE number = $1`. -/
def firstRowNumber (n : Nat) : MiniblockTable → Option MiniblockRow
  | [] => none
  | r :: rest => if r.number = n then some r else firstRowNumber n rest

/-- `SELECT MAX(number) FROM miniblocks` over the table. -/
def maxNumber (db : MiniblockTable) : Option Nat :=
  maxOf (db.map (fun r => r.number))

/-- Embedded from `resolve_block_id` (blocks_web3_dal.rs, lines 218–244).
The `Earliest` arm returns `Some(MiniblockNumber(0))` before any query is
issued; the remaining arms run a query and yield `none` exactly when the
query produces no row or a NULL aggregate.  The `Latest`/`Committed`/
`Finalized` and `Pending` query semantics come from
`web3_block_number_to_sql` (not in the snapshot), pinned by the in-repo
tests `resolving_latest_block_id` and `resolving_block_by_hash`:
`MAX(number)` and `MAX(number) + 1` respectively. -/
def resolve_block_id (db : MiniblockTable) : BlockId → Option Nat
  | .Hash h =>
    match firstRowHash h db with
    | some r => some r.number
    | none => none
  | .Number (.Number n) =>
    match firstRowNumber n db with
    | some r => some r.number
    | none => none
  | .Number .Earliest => some 0
  | .Number .Latest => maxNumber db
  | .Number .Committed => maxNumber db
  | .Number .Finalized => maxNumber db
  | .Number .Pending =>
    match maxNumber db with
    | some m => some (m + 1)
    | none => none

/-- The claim's notion of a matching miniblock row for a block id: a row
with the requested hash or number; for the relative selectors (`Latest`,
`Committed`, `Finalized`, `Pending`, which resolve relative to the most
recent row) any row at all. -/
def matchingRowExists (db : MiniblockTable) : BlockId → Prop
  | .Hash h => ∃ r ∈ db, r.hash = h
  | .Number (.Number n) => ∃ r ∈ db, r.number = n
  | .Number _ => db ≠ []

/-- The numbers of the miniblocks of one L1 batch:
`WHERE l1_batch_number = $1`. -/
def batchMiniblockNumbers (db : MiniblockTable) (b : Nat) : List Nat :=
  (db.filter (fun r => decide (r.l1BatchNumber = some b))).map (fun r => r.number)

/-- Embedded from `get_miniblock_range_of_l1_batch` (blocks_web3_dal.rs,
lines 294–314): `SELECT MIN(number), MAX(number) WHERE l1_batch_number = $1`,
matched on the pair of nullable aggregates.  The outer `none` models the
`unreachable!()` arm taken when exactly one aggregate is NULL. -/
def get_miniblock_range_of_l1_batch (db : MiniblockTable) (b : Nat) :
    Option (Option (Nat × Nat)) :=
  match minOf (batchMiniblockNumbers db b), maxOf (batchMiniblockNumbers db b) with
  | some mn, some mx => some (some (mn, mx))
  | none, none => some none
  | _, _ => none

end ZkSyncCore

namespace ZkSyncCore

theorem lookupNonce_setNonce_self (l : List (Nat × Nat)) (s n : Nat) :
    lookupNonce (setNonce l s n) s = some n := by
  simp [setNonce, lookupNonce]

theorem lookupNonce_removeSender_ne (l : List (Nat × Nat)) (s s' : Nat) (h : s' ≠ s) :
    lookupNonce (removeSender l s) s' = lookupNonce l s' := by
  induction l with
  | nil => rfl
  | cons p rest ih =>
    obtain ⟨k, v⟩ := p
    simp only [removeSender]
    by_cases hk : k = s
    · rw [if_pos hk]
      simp only [lookupNonce]
      rw [if_neg (fun hc : k = s' => h (by rw [← hc]; exact hk))]
      exact ih
    · rw [if_neg hk]
      simp only [lookupNonce]
      by_cases hk' : k = s'
      · rw [if_pos hk', if_pos hk']
      · rw [if_neg hk', if_neg hk']
        exact ih

theorem lookupNonce_setNonce_ne (l : List (Nat × Nat)) (s n s' : Nat) (h : s' ≠ s) :
    lookupNonce (setNonce l s n) s' = lookupNonce l s' := by
  simp only [setNonce, lookupNonce]
  rw [if_neg (fun hc => h hc.symm)]
  exact lookupNonce_removeSender_ne l s s' h

theorem expectedNonce_mk0 (cap w s : Nat) : (Mempool.mk0 cap w).expectedNonce s = 0 := by
  rfl

/-- Insertion never changes the per-sender nonce table, the priority
watermark or the capacity. -/
theorem insert_preserves_tables (m : Mempool) (tx : Tx) (m' : Mempool)
    (h : m.insert tx = .ok m') :
    m'.nonces = m.nonces ∧ m'.nextPriorityId = m.nextPriorityId ∧
    m'.capacity = m.capacity := by
  unfold Mempool.insert at h
  by_cases hd : m.isDup tx
  · rw [if_pos hd] at h
    cases h
    exact ⟨rfl, rfl, rfl⟩
  · rw [if_neg hd] at h
    by_cases hc : m.capacity ≤ m.size
    · rw [if_pos hc] at h
      cases h
    · rw [if_neg hc] at h
      cases h
      cases tx with
      | l2 t => exact ⟨rfl, rfl, rfl⟩
      | priority id => exact ⟨rfl, rfl, rfl⟩

theorem findEligible_some (expected : Nat → Nat) (l : List L2Tx) (t : L2Tx)
    (h : findEligible expected l = some t) :
    t.nonce = expected t.sender ∧ t ∈ l := by
  induction l with
  | nil => cases h
  | cons u rest ih =>
    unfold findEligible at h
    by_cases hu : u.nonce = expected u.sender
    · rw [if_pos hu] at h
      cases h
      exact ⟨hu, List.mem_cons_self _ _⟩
    · rw [if_neg hu] at h
      rcases ih h with ⟨h1, h2⟩
      exact ⟨h1, List.mem_cons_of_mem _ h2⟩

/-- Case analysis of a successful `takeNext`: either the watermark priority
operation is delivered and the watermark advances by one, or an L2
transaction at its sender's expected nonce is delivered and that sender's
expected nonce advances past it. -/
theorem takeNext_cases (m : Mempool) (tx : Tx) (m' : Mempool)
    (h : m.takeNext = some (tx, m')) :
    (tx = .priority m.nextPriorityId ∧
      m'.nonces = m.nonces ∧ m'.nextPriorityId = m.nextPriorityId + 1 ∧
      m'.l2txs = m.l2txs ∧ m'.capacity = m.capacity) ∨
    (∃ t : L2Tx, tx = .l2 t ∧ t.nonce = m.expectedNonce t.sender ∧ t ∈ m.l2txs ∧
      m'.nonces = setNonce m.nonces t.sender (t.nonce + 1) ∧
      m'.nextPriorityId = m.nextPriorityId ∧
      m'.l2txs = removeFirst t m.l2txs ∧
      m'.priorityOps = m.priorityOps ∧ m'.capacity = m.capacity) := by
  unfold Mempool.takeNext at h
  by_cases hp : m.nextPriorityId ∈ m.priorityOps
  · rw [if_pos hp] at h
    cases h
    exact Or.inl ⟨rfl, rfl, rfl, rfl, rfl⟩
  · rw [if_neg hp] at h
    cases hf : findEligible m.expectedNonce m.l2txs with
    | none => rw [hf] at h; cases h
    | some t =>
      rw [hf] at h
      cases h
      rcases findEligible_some _ _ _ hf with ⟨h1, h2⟩
      exact Or.inr ⟨t, rfl, h1, h2, rfl, rfl, rfl, rfl, rfl⟩

theorem deliveredForSender_append (out₁ out₂ : List Tx) (s : Nat) :
    deliveredForSender (out₁ ++ out₂) s =
      deliveredForSender out₁ s ++ deliveredForSender out₂ s := by
  simp [deliveredForSender, List.filterMap_append]

theorem deliveredPriorityIds_append (out₁ out₂ : List Tx) :
    deliveredPriorityIds (out₁ ++ out₂) =
      deliveredPriorityIds out₁ ++ deliveredPriorityIds out₂ := by
  simp [deliveredPriorityIds, List.filterMap_append]

/-- The per-sender delivery invariant: the nonces delivered so far for a
sender are exactly 0, 1, …, up to that sender's recorded expected nonce. -/
def SenderInv (s : Nat) (st : Mempool × List Tx) : Prop :=
  deliveredForSender st.2 s = List.range (st.1.expectedNonce s)

theorem mstep_SenderInv (s : Nat) (st : Mempool × List Tx) (op : MOp)
    (h : SenderInv s st) : SenderInv s (mstep st op) := by
  cases op with
  | ins tx =>
    unfold SenderInv at h ⊢
    simp only [mstep]
    cases hins : st.1.insert tx with
    | ok m' =>
      simp only [hins]
      rcases insert_preserves_tables st.1 tx m' hins with ⟨hn, _, _⟩
      simp only [Mempool.expectedNonce, hn]
      exact h
    | error e =>
      simp only [hins]
      exact h
  | evict t =>
    unfold SenderInv at h ⊢
    simp only [mstep, Mempool.evict]
    exact h
  | take =>
    unfold SenderInv at h ⊢
    simp only [mstep]
    cases ht : st.1.takeNext with
    | none =>
      simp only [ht]
      exact h
    | some p =>
      rcases p with ⟨tx, m'⟩
      simp only [ht]
      rcases takeNext_cases st.1 tx m' ht with
        ⟨htx, hn, _, _, _⟩ | ⟨t, htx, hnonce, _, hn, _, _, _, _⟩
      · subst htx
        simp only [deliveredForSender_append]
        rw [h]
        have hnil : deliveredForSender [Tx.priority st.1.nextPriorityId] s = [] := by
          simp [deliveredForSender]
        rw [hnil, List.append_nil]
        simp only [Mempool.expectedNonce, hn]
      · subst htx
        simp only [deliveredForSender_append]
        rw [h]
        by_cases hs : t.sender = s
        · have hone : deliveredForSender [Tx.l2 t] s = [t.nonce] := by
            simp [deliveredForSender, hs]
          rw [hone]
          have he : m'.expectedNonce s = t.nonce + 1 := by
            simp only [Mempool.expectedNonce, hn, ← hs]
            rw [lookupNonce_setNonce_self]
          rw [he]
          have hexp : st.1.expectedNonce s = t.nonce := by rw [← hs, ← hnonce]
          rw [hexp, List.range_succ]
        · have hzero : deliveredForSender [Tx.l2 t] s = [] := by
            simp [deliveredForSender, hs]
          rw [hzero, List.append_nil]
          have he : m'.expectedNonce s = st.1.expectedNonce s := by
            simp only [Mempool.expectedNonce, hn]
            rw [lookupNonce_setNonce_ne _ _ _ _ (fun hc => hs hc.symm)]
          rw [he]

theorem foldl_SenderInv (s : Nat) (ops : List MOp) (st : Mempool × List Tx)
    (h : SenderInv s st) : SenderInv s (ops.foldl mstep st) := by
  induction ops generalizing st with
  | nil => exact h
  | cons op rest ih => exact ih _ (mstep_SenderInv s st op h)

/-- The priority delivery invariant: the priority ids delivered so far are
exactly the consecutive ids from the initial watermark up to the current
watermark. -/
def PrioInv (w : Nat) (st : Mempool × List Tx) : Prop :=
  ∃ k, st.1.nextPriorityId = w + k ∧ deliveredPriorityIds st.2 = List.range' w k

theorem range'_snoc (a n : Nat) :
    List.range' a (n + 1) = List.range' a n ++ [a + n] := by
  induction n generalizing a with
  | zero => simp [List.range']
  | succ k ih =>
    rw [List.range']
    rw [ih (a + 1)]
    rw [List.range']
    simp [List.cons_append, Nat.add_assoc, Nat.add_comm 1 k]

theorem mstep_PrioInv (w : Nat) (st : Mempool × List Tx) (op : MOp)
    (h : PrioInv w st) : PrioInv w (mstep st op) := by
  rcases h with ⟨k, hw, hd⟩
  cases op with
  | ins tx =>
    unfold PrioInv
    simp only [mstep]
    cases hins : st.1.insert tx with
    | ok m' =>
      simp only [hins]
      rcases insert_preserves_tables st.1 tx m' hins with ⟨_, hp, _⟩
      exact ⟨k, by rw [hp, hw], hd⟩
    | error e =>
      simp only [hins]
      exact ⟨k, hw, hd⟩
  | evict t =>
    unfold PrioInv
    simp only [mstep, Mempool.evict]
    exact ⟨k, hw, hd⟩
  | take =>
    unfold PrioInv
    simp only [mstep]
    cases ht : st.1.takeNext with
    | none =>
      simp only [ht]
      exact ⟨k, hw, hd⟩
    | some p =>
      rcases p with ⟨tx, m'⟩
      simp only [ht]
      rcases takeNext_cases st.1 tx m' ht with
        ⟨htx, _, hp, _, _⟩ | ⟨t, htx, _, _, _, hp, _, _, _⟩
      · subst htx
        refine ⟨k + 1, ?_, ?_⟩
        · rw [hp, hw, Nat.add_assoc]
        · rw [deliveredPriorityIds_append, hd]
          have hone : deliveredPriorityIds [Tx.priority st.1.nextPriorityId] =
              [st.1.nextPriorityId] := by simp [deliveredPriorityIds]
          rw [hone, hw, range'_snoc]
      · subst htx
        refine ⟨k, by rw [hp, hw], ?_⟩
        rw [deliveredPriorityIds_append, hd]
        have hnil : deliveredPriorityIds [Tx.l2 t] = [] := by simp [deliveredPriorityIds]
        rw [hnil, List.append_nil]

theorem foldl_PrioInv (w : Nat) (ops : List MOp) (st : Mempool × List Tx)
    (h : PrioInv w st) : PrioInv w (ops.foldl mstep st) := by
  induction ops generalizing st with
  | nil => exact h
  | cons op rest ih => exact ih _ (mstep_PrioInv w st op h)

/-- Claim C1: for every sequence of mempool insertions and removals (takes
and evictions), the nonces the mempool returns for execution for any sender
form the consecutive list 0, 1, …, k−1 in that order — so a transaction at
nonce N is never returned before the same sender's transaction at nonce N−1
has been removed, and per-sender delivery order equals nonce order. -/
theorem c1_mempool_per_sender_nonce_order (cap w : Nat) (ops : List MOp) (s : Nat) :
    ∃ k, deliveredForSender (mrun (Mempool.mk0 cap w) ops).2 s = List.range k := by
  have h0 : SenderInv s (Mempool.mk0 cap w, []) := by
    unfold SenderInv
    simp [deliveredForSender, expectedNonce_mk0]
  have h := foldl_SenderInv s ops _ h0
  exact ⟨(mrun (Mempool.mk0 cap w) ops).1.expectedNonce s, h⟩

/-- Claim C8: priority operations are executed in strictly ascending
priority-id order regardless of submission order.  First conjunct: ids
5, 6, 7 submitted in order 7, 5, 6 are delivered in order 5, 6, 7.  Second
conjunct: in every trace, the delivered priority ids are the consecutive
ids starting at the watermark, so no two priority operations are ever
reordered relative to each other. -/
theorem c8_priority_ops_in_id_order :
    (mrun (Mempool.mk0 8 5)
        [MOp.ins (Tx.priority 7), MOp.ins (Tx.priority 5), MOp.ins (Tx.priority 6),
         MOp.take, MOp.take, MOp.take]).2 =
      [Tx.priority 5, Tx.priority 6, Tx.priority 7] ∧
    ∀ (cap w : Nat) (ops : List MOp),
      ∃ k, deliveredPriorityIds (mrun (Mempool.mk0 cap w) ops).2 = List.range' w k := by
  constructor
  · decide
  · intro cap w ops
    have h0 : PrioInv w (Mempool.mk0 cap w, []) := by
      exact ⟨0, rfl, by simp [deliveredPriorityIds]⟩
    rcases foldl_PrioInv w ops _ h0 with ⟨k, _, hd⟩
    exact ⟨k, hd⟩

theorem maxOf_eq_none_iff (l : List Nat) : maxOf l = none ↔ l = [] := by
  cases l with
  | nil => simp [maxOf]
  | cons x xs =>
    simp only [maxOf]
    cases maxOf xs with
    | none => simp
    | some m => simp

theorem maxOf_le_of_mem (l : List Nat) (x m : Nat) (hx : x ∈ l)
    (hm : maxOf l = some m) : x ≤ m := by
  induction l generalizing m with
  | nil => cases hx
  | cons y ys ih =>
    simp only [maxOf] at hm
    cases hys : maxOf ys with
    | none =>
      rw [hys] at hm
      cases hm
      have : ys = [] := (maxOf_eq_none_iff ys).mp hys
      subst this
      rcases List.mem_singleton.mp hx with rfl
      exact Nat.le_refl _
    | some k =>
      rw [hys] at hm
      cases hm
      rcases List.mem_cons.mp hx with rfl | hmem
      · exact Nat.le_max_left _ _
      · exact Nat.le_trans (ih k hmem hys) (Nat.le_max_right _ _)

theorem isDup_mk0_false (cap w : Nat) (tx : Tx) (h : match tx with
    | .l2 _ => True
    | .priority id => w ≤ id) : (Mempool.mk0 cap w).isDup tx = false := by
  cases tx with
  | l2 t => simp [Mempool.isDup, Mempool.mk0, Mempool.expectedNonce, lookupNonce]
  | priority id =>
    simp only [Mempool.isDup, Mempool.mk0]
    simp [Nat.not_lt.mpr h]

theorem insert_eq_ok_dup (m : Mempool) (tx : Tx) (h : m.isDup tx = true) :
    m.insert tx = .ok m := by
  simp [Mempool.insert, h]

theorem insert_eq_full (m : Mempool) (tx : Tx) (h : m.isDup tx = false)
    (hc : m.capacity ≤ m.size) : m.insert tx = .error .Full := by
  simp [Mempool.insert, h, hc]

theorem insert_eq_ok_add (m : Mempool) (tx : Tx) (h : m.isDup tx = false)
    (hc : ¬m.capacity ≤ m.size) : m.insert tx = .ok (m.addTx tx) := by
  simp [Mempool.insert, h, hc]

theorem size_addTx (m : Mempool) (tx : Tx) : (m.addTx tx).size = m.size + 1 := by
  cases tx with
  | l2 t => simp [Mempool.addTx, Mempool.size, Nat.add_assoc, Nat.add_comm 1]
  | priority id =>
    simp [Mempool.addTx, Mempool.size, Nat.add_right_comm]

theorem capacity_addTx (m : Mempool) (tx : Tx) : (m.addTx tx).capacity = m.capacity := by
  cases tx with
  | l2 t => rfl
  | priority id => rfl

theorem isDup_addTx_self (m : Mempool) (tx : Tx) : (m.addTx tx).isDup tx = true := by
  cases tx with
  | l2 t => simp [Mempool.addTx, Mempool.isDup]
  | priority id => simp [Mempool.addTx, Mempool.isDup]

theorem isDup_addTx_of_ne (m : Mempool) (tx tx' : Tx) (h : tx' ≠ tx) :
    (m.addTx tx).isDup tx' = m.isDup tx' := by
  cases tx with
  | l2 t =>
    cases tx' with
    | l2 t' =>
      have ht : t' ≠ t := fun hc => h (by rw [hc])
      simp [Mempool.addTx, Mempool.isDup, Mempool.expectedNonce, List.mem_cons, ht]
    | priority id' => simp [Mempool.addTx, Mempool.isDup]
  | priority id =>
    cases tx' with
    | l2 t' => simp [Mempool.addTx, Mempool.isDup, Mempool.expectedNonce]
    | priority id' =>
      have hi : id' ≠ id := fun hc => h (by rw [hc])
      simp [Mempool.addTx, Mempool.isDup, List.mem_cons, hi]

theorem insertAllM_fresh (txs : List Tx) :
    ∀ m : Mempool, txs.Nodup → (∀ tx ∈ txs, m.isDup tx = false) →
    m.size + txs.length ≤ m.capacity →
    (insertAllM m txs).size = m.size + txs.length ∧
    (insertAllM m txs).capacity = m.capacity ∧
    (∀ tx : Tx, tx ∉ txs → (insertAllM m txs).isDup tx = m.isDup tx) := by
  induction txs with
  | nil =>
    intro m _ _ _
    exact ⟨rfl, rfl, fun _ _ => rfl⟩
  | cons tx rest ih =>
    intro m hnd hfresh hcap
    have hdup : m.isDup tx = false := hfresh tx (List.mem_cons_self _ _)
    have hlt : ¬m.capacity ≤ m.size := by
      have : m.size + 1 ≤ m.capacity := by
        calc m.size + 1 ≤ m.size + (tx :: rest).length := by
              simp only [List.length_cons]; omega
          _ ≤ m.capacity := hcap
      omega
    have hins : m.insert tx = .ok (m.addTx tx) := insert_eq_ok_add m tx hdup hlt
    have hstep : insertAllM m (tx :: rest) = insertAllM (m.addTx tx) rest := by
      simp [insertAllM, hins]
    have hndr : rest.Nodup := by
      rcases List.nodup_cons.mp hnd with ⟨_, h2⟩
      exact h2
    have hnotmem : tx ∉ rest := by
      rcases List.nodup_cons.mp hnd with ⟨h1, _⟩
      exact h1
    have hfr : ∀ u ∈ rest, (m.addTx tx).isDup u = false := by
      intro u hu
      have hne : u ≠ tx := fun hc => hnotmem (hc ▸ hu)
      rw [isDup_addTx_of_ne m tx u hne]
      exact hfresh u (List.mem_cons_of_mem _ hu)
    have hcap' : (m.addTx tx).size + rest.length ≤ (m.addTx tx).capacity := by
      rw [size_addTx, capacity_addTx]
      calc m.size + 1 + rest.length = m.size + (tx :: rest).length := by
            simp only [List.length_cons]; omega
        _ ≤ m.capacity := hcap
    rcases ih (m.addTx tx) hndr hfr hcap' with ⟨hsz, hcp, hdp⟩
    refine ⟨?_, ?_, ?_⟩
    · rw [hstep, hsz, size_addTx]
      simp only [List.length_cons]
      omega
    · rw [hstep, hcp, capacity_addTx]
    · intro u hu
      have hur : u ∉ rest := fun hc => hu (List.mem_cons_of_mem _ hc)
      have hutx : u ≠ tx := fun hc => hu (hc ▸ List.mem_cons_self _ _)
      rw [hstep, hdp u hur, isDup_addTx_of_ne m tx u hutx]

theorem insertAllM_append (m : Mempool) (l₁ l₂ : List Tx) :
    insertAllM m (l₁ ++ l₂) = insertAllM (insertAllM m l₁) l₂ := by
  induction l₁ generalizing m with
  | nil => rfl
  | cons tx rest ih =>
    simp only [List.cons_append, insertAllM]
    cases m.insert tx with
    | ok m' => exact ih m'
    | error e => exact ih m

/-- Claim C4: the mempool's priority-id watermark is seeded at startup from
the durable store via `next_priority_id` (one past the maximum recorded
priority id), and a priority operation whose id is below the watermark is
never re-admitted: inserting it is a no-op.  First conjunct: re-inserting
any recorded priority operation into the freshly seeded mempool leaves the
mempool unchanged.  Second conjunct: in any mempool, inserting a priority
operation with id below the watermark leaves the mempool unchanged. -/
theorem c4_priority_watermark_no_readmission (recorded : List Nat) (cap id : Nat)
    (h : id ∈ recorded) :
    Mempool.insert (Mempool.mk0 cap (next_priority_id recorded)) (Tx.priority id)
      = Except.ok (Mempool.mk0 cap (next_priority_id recorded)) ∧
    ∀ (m : Mempool) (j : Nat), j < m.nextPriorityId →
      m.insert (Tx.priority j) = Except.ok m := by
  have general : ∀ (m : Mempool) (j : Nat), j < m.nextPriorityId →
      m.insert (Tx.priority j) = Except.ok m := by
    intro m j hj
    apply insert_eq_ok_dup
    simp [Mempool.isDup, hj]
  refine ⟨?_, general⟩
  apply general
  cases hmx : maxOf recorded with
  | none =>
    exact absurd ((maxOf_eq_none_iff recorded).mp hmx ▸ h) (List.not_mem_nil id)
  | some mx =>
    have hle : id ≤ mx := maxOf_le_of_mem recorded id mx h hmx
    simp only [Mempool.mk0, next_priority_id, hmx]
    omega

/-- Witness for C4 at a concrete durable store. -/
theorem c4_priority_watermark_no_readmission_witness :
    Mempool.insert (Mempool.mk0 10 (next_priority_id [3, 5, 4])) (Tx.priority 5)
      = Except.ok (Mempool.mk0 10 (next_priority_id [3, 5, 4])) :=
  (c4_priority_watermark_no_readmission [3, 5, 4] 10 5 (by decide)).1

/-- Claim C5: for every capacity C, inserting C+1 distinct transactions
from an empty mempool leaves the size at most C and the overflowing insert
fails with `Full`; and `insert` is idempotent for an already-present
transaction (a second insert succeeds and leaves the mempool unchanged). -/
theorem c5_capacity_full_and_idempotent (cap : Nat) (txs : List Tx) (tx : Tx)
    (hnd : (txs ++ [tx]).Nodup) (hlen : txs.length = cap) :
    (Mempool.insert (insertAllM (Mempool.mk0 cap 0) txs) tx
        = Except.error MempoolError.Full ∧
      Mempool.size (insertAllM (Mempool.mk0 cap 0) (txs ++ [tx])) ≤ cap) ∧
    ∀ (m m' : Mempool) (u : Tx), m.insert u = Except.ok m' →
      m'.insert u = Except.ok m' := by
  have hnd1 : txs.Nodup := ((List.nodup_append.mp hnd).1)
  have hdisj : tx ∉ txs := by
    have h3 := (List.nodup_append.mp hnd).2.2
    intro hc
    exact h3 hc (List.mem_singleton.mpr rfl)
  have hfresh : ∀ u ∈ txs, (Mempool.mk0 cap 0).isDup u = false := by
    intro u _
    apply isDup_mk0_false
    cases u with
    | l2 t => trivial
    | priority id => exact Nat.zero_le id
  have hcap : (Mempool.mk0 cap 0).size + txs.length ≤ (Mempool.mk0 cap 0).capacity := by
    simp [Mempool.mk0, Mempool.size, hlen]
  rcases insertAllM_fresh txs (Mempool.mk0 cap 0) hnd1 hfresh hcap with ⟨hsz, hcp, hdp⟩
  have hsz' : (insertAllM (Mempool.mk0 cap 0) txs).size = cap := by
    rw [hsz]
    simp [Mempool.mk0, Mempool.size, hlen]
  have hcp' : (insertAllM (Mempool.mk0 cap 0) txs).capacity = cap := by
    rw [hcp]
    rfl
  have hdup : (insertAllM (Mempool.mk0 cap 0) txs).isDup tx = false := by
    rw [hdp tx hdisj]
    apply isDup_mk0_false
    cases tx with
    | l2 t => trivial
    | priority id => exact Nat.zero_le id
  have hfull : Mempool.insert (insertAllM (Mempool.mk0 cap 0) txs) tx
      = Except.error MempoolError.Full := by
    apply insert_eq_full _ _ hdup
    rw [hsz', hcp']
  refine ⟨⟨hfull, ?_⟩, ?_⟩
  · rw [insertAllM_append]
    simp only [insertAllM, hfull]
    rw [hsz']
  · intro m m' u hok
    cases hd : m.isDup u with
    | true =>
      rw [insert_eq_ok_dup m u hd] at hok
      cases hok
      exact insert_eq_ok_dup m u hd
    | false =>
      by_cases hc : m.capacity ≤ m.size
      · rw [insert_eq_full m u hd hc] at hok
        cases hok
      · rw [insert_eq_ok_add m u hd hc] at hok
        cases hok
        exact insert_eq_ok_dup _ _ (isDup_addTx_self m u)

/-- Witness for C5 at capacity 1 with two distinct transactions. -/
theorem c5_capacity_full_and_idempotent_witness :
    Mempool.insert (insertAllM (Mempool.mk0 1 0) [Tx.l2 ⟨0, 0⟩]) (Tx.priority 0)
        = Except.error MempoolError.Full ∧
      Mempool.size (insertAllM (Mempool.mk0 1 0) ([Tx.l2 ⟨0, 0⟩] ++ [Tx.priority 0])) ≤ 1 :=
  (c5_capacity_full_and_idempotent 1 [Tx.l2 ⟨0, 0⟩] (Tx.priority 0)
    (by decide) (by decide)).1

theorem wStep_inv {α : Type} (w : Writer α) (op : WOp α)
    (h : w.persisted ++ w.queue = w.accepted) :
    (wStep w op).persisted ++ (wStep w op).queue = (wStep w op).accepted := by
  cases op with
  | enq c =>
    by_cases hc : w.capacity ≤ w.queue.length
    · simp only [wStep, if_pos hc]
      exact h
    · simp only [wStep, if_neg hc]
      rw [← List.append_assoc, h]
  | deq =>
    cases hq : w.queue with
    | nil =>
      simp only [wStep, hq]
      rw [hq] at h
      exact h
    | cons c rest =>
      simp only [wStep, hq]
      rw [hq] at h
      rw [List.append_assoc, List.singleton_append]
      exact h

theorem wRun_inv {α : Type} (ops : List (WOp α)) (w : Writer α)
    (h : w.persisted ++ w.queue = w.accepted) :
    (wRun w ops).persisted ++ (wRun w ops).queue = (wRun w ops).accepted := by
  induction ops generalizing w with
  | nil => exact h
  | cons op rest ih => exact ih (wStep w op) (wStep_inv w op h)

theorem wRun_drain {α : Type} (q : List α) :
    ∀ w : Writer α, w.queue = q →
    (wRun w (List.replicate q.length WOp.deq)).persisted = w.persisted ++ w.queue := by
  induction q with
  | nil =>
    intro w hq
    simp [wRun, hq]
  | cons c rest ih =>
    intro w hq
    have hrep : List.replicate (c :: rest).length (WOp.deq (α := α)) =
        WOp.deq :: List.replicate rest.length WOp.deq := by
      simp [List.replicate]
    rw [hrep]
    have hstep : wStep w WOp.deq =
        { w with queue := rest, persisted := w.persisted ++ [c] } := by
      simp only [wStep, hq]
    have hrun : wRun w (WOp.deq :: List.replicate rest.length WOp.deq) =
        wRun (wStep w WOp.deq) (List.replicate rest.length WOp.deq) := rfl
    rw [hrun, hstep]
    rw [ih { w with queue := rest, persisted := w.persisted ++ [c] } rfl]
    rw [hq, List.append_assoc, List.singleton_append]

/-- Claim C3: the sealing writer persists seal commands in exactly the order
they were enqueued, regardless of how writer steps interleave with
enqueues.  First conjunct: at any point of any trace, the persisted sequence
followed by the still-queued sequence is exactly the accepted-enqueue
sequence in order (so the persisted sequence is an initial segment of the
enqueue order, never reordered).  Second conjunct: draining the remaining
queue persists exactly the accepted-enqueue sequence. -/
theorem c3_sealing_writer_fifo {α : Type} (cap : Nat) (ops : List (WOp α)) :
    (wRun (Writer.start cap) ops).persisted ++ (wRun (Writer.start cap) ops).queue
        = (wRun (Writer.start cap) ops).accepted ∧
    (wRun (wRun (Writer.start cap) ops)
        (List.replicate (wRun (Writer.start cap) ops).queue.length WOp.deq)).persisted
        = (wRun (Writer.start cap) ops).accepted := by
  have hinv : (wRun (Writer.start cap) ops).persisted ++ (wRun (Writer.start cap) ops).queue
      = (wRun (Writer.start cap) ops).accepted := by
    apply wRun_inv
    rfl
  refine ⟨hinv, ?_⟩
  rw [wRun_drain (wRun (Writer.start cap) ops).queue (wRun (Writer.start cap) ops) rfl]
  exact hinv

theorem expectedNonce_congr (m m' : Mempool) (h : m'.nonces = m.nonces) (s : Nat) :
    m'.expectedNonce s = m.expectedNonce s := by
  simp [Mempool.expectedNonce, h]

theorem txBelow_mono (m m' : Mempool)
    (hE : ∀ s, m.expectedNonce s ≤ m'.expectedNonce s)
    (hW : m.nextPriorityId ≤ m'.nextPriorityId) (tx : Tx)
    (h : txBelow m tx) : txBelow m' tx := by
  cases tx with
  | l2 u => exact Nat.lt_of_lt_of_le h (hE u.sender)
  | priority id => exact Nat.lt_of_lt_of_le h hW

theorem takeNext_mono (m : Mempool) (tx : Tx) (m' : Mempool)
    (h : m.takeNext = some (tx, m')) :
    (∀ s, m.expectedNonce s ≤ m'.expectedNonce s) ∧
    m.nextPriorityId ≤ m'.nextPriorityId ∧ txBelow m' tx := by
  rcases takeNext_cases m tx m' h with
    ⟨htx, hn, hp, _, _⟩ | ⟨t, htx, hnonce, _, hn, hp, _, _, _⟩
  · subst htx
    refine ⟨fun s => Nat.le_of_eq (expectedNonce_congr m m' hn s).symm, ?_, ?_⟩
    · rw [hp]; omega
    · show m.nextPriorityId < m'.nextPriorityId
      rw [hp]; omega
  · subst htx
    have hsender : m'.expectedNonce t.sender = t.nonce + 1 := by
      simp only [Mempool.expectedNonce, hn]
      rw [lookupNonce_setNonce_self]
    have hother : ∀ s, s ≠ t.sender → m'.expectedNonce s = m.expectedNonce s := by
      intro s hs
      simp only [Mempool.expectedNonce, hn]
      rw [lookupNonce_setNonce_ne _ _ _ _ hs]
    refine ⟨?_, Nat.le_of_eq hp.symm, ?_⟩
    · intro s
      by_cases hs : s = t.sender
      · subst hs
        rw [hsender, ← hnonce]
        omega
      · rw [hother s hs]
    · show t.nonce < m'.expectedNonce t.sender
      rw [hsender]
      omega

theorem insert_result_CurrentOK (exec : Tx → ExecClass) (u : Option Nat)
    (st : SeqState) (tx : Tx) (h : CurrentOK st) :
    CurrentOK (pstep exec u st (POp.feed tx)) := by
  simp only [CurrentOK, pstep] at h ⊢
  cases hins : st.mempool.insert tx with
  | ok m' =>
    simp only [hins]
    intro tx' htx'
    rcases insert_preserves_tables st.mempool tx m' hins with ⟨hn, hw, _⟩
    apply txBelow_mono st.mempool m'
    · intro s
      exact Nat.le_of_eq (expectedNonce_congr _ _ hn s).symm
    · rw [hw]
    · exact h tx' htx'
  | error e =>
    simp only [hins]
    exact h

theorem pstep_CurrentOK (exec : Tx → ExecClass) (u : Option Nat)
    (st : SeqState) (op : POp) (h : CurrentOK st) :
    CurrentOK (pstep exec u st op) := by
  cases op with
  | feed tx => exact insert_result_CurrentOK exec u st tx h
  | evictStuck t =>
    simp only [CurrentOK, pstep, Mempool.evict] at h ⊢
    intro tx' htx'
    have := h tx' htx'
    cases tx' with
    | l2 v => exact this
    | priority id => exact this
  | tick =>
    simp only [CurrentOK, pstep, seqTick] at h ⊢
    cases ht : st.mempool.takeNext with
    | none =>
      simp only [ht]
      exact h
    | some p =>
      rcases p with ⟨tx, m'⟩
      simp only [ht]
      rcases takeNext_mono st.mempool tx m' ht with ⟨hE, hW, hB⟩
      cases he : exec tx with
      | permanent =>
        simp only
        intro tx' htx'
        exact txBelow_mono st.mempool m' hE hW tx' (h tx' htx')
      | transient =>
        simp only
        intro tx' htx'
        cases htx'
      | success =>
        by_cases hseal : hits u (st.current ++ [tx]).length
        · simp only [if_pos hseal]
          intro tx' htx'
          cases htx'
        · simp only [if_neg hseal]
          intro tx' htx'
          rcases List.mem_append.mp htx' with hmem | hmem
          · exact txBelow_mono st.mempool m' hE hW tx' (h tx' hmem)
          · rcases List.mem_singleton.mp hmem with rfl
            exact hB

theorem foldl_CurrentOK (exec : Tx → ExecClass) (u : Option Nat)
    (ops : List POp) : ∀ st : SeqState, CurrentOK st →
    CurrentOK (ops.foldl (pstep exec u) st) := by
  induction ops with
  | nil => exact fun st h => h
  | cons op rest ih =>
    intro st h
    exact ih _ (pstep_CurrentOK exec u st op h)

theorem runP_CurrentOK (exec : Tx → ExecClass) (u : Option Nat) (cap w : Nat)
    (ops : List POp) : CurrentOK (afterOps exec u cap w ops) := by
  apply foldl_CurrentOK
  intro tx htx
  cases htx

theorem sendersTxs_removeFirst_ne (t : L2Tx) (s : Nat) (hs : t.sender ≠ s)
    (l : List L2Tx) : sendersTxs s (removeFirst t l) = sendersTxs s l := by
  induction l with
  | nil => rfl
  | cons u rest ih =>
    simp only [removeFirst]
    by_cases hu : u = t
    · rw [if_pos hu]
      have : u.sender ≠ s := by rw [hu]; exact hs
      simp only [sendersTxs, if_neg this]
    · rw [if_neg hu]
      simp only [sendersTxs]
      by_cases hus : u.sender = s
      · rw [if_pos hus, if_pos hus, ih]
      · rw [if_neg hus, if_neg hus]
        exact ih

/-- Claim C6: when the next transaction the mempool hands out fails with a
`Transient/Resource` classification, the sequencer force-seals the current
ExecutionUnit, the force-sealed unit does not contain the failed
transaction, the failed transaction is returned to the mempool via
`rollback` and becomes the first eligible transaction for its sender, and
the mempool state of every other sender is unchanged. -/
theorem c6_transient_rollback_force_seal (exec : Tx → ExecClass)
    (unitMaxTxs : Option Nat) (cap w : Nat) (ops : List POp) (t : L2Tx)
    (htake : ((afterOps exec unitMaxTxs cap w ops).mempool.takeNext).map Prod.fst
        = some (Tx.l2 t))
    (hexec : exec (Tx.l2 t) = ExecClass.transient) :
    (seqTick exec unitMaxTxs (afterOps exec unitMaxTxs cap w ops)).2
        = some (afterOps exec unitMaxTxs cap w ops).current ∧
    Tx.l2 t ∉ (afterOps exec unitMaxTxs cap w ops).current ∧
    (seqTick exec unitMaxTxs (afterOps exec unitMaxTxs cap w ops)).1.current = [] ∧
    Mempool.nextForSender
        (seqTick exec unitMaxTxs (afterOps exec unitMaxTxs cap w ops)).1.mempool t.sender
      = some t ∧
    ∀ s, s ≠ t.sender →
      Mempool.senderView
          (seqTick exec unitMaxTxs (afterOps exec unitMaxTxs cap w ops)).1.mempool s
        = Mempool.senderView (afterOps exec unitMaxTxs cap w ops).mempool s := by
  cases htk : (afterOps exec unitMaxTxs cap w ops).mempool.takeNext with
  | none =>
    rw [htk] at htake
    cases htake
  | some p =>
    rcases p with ⟨tx, m'⟩
    rw [htk] at htake
    have htx : tx = Tx.l2 t := by
      simpa using htake
    subst htx
    have hred : seqTick exec unitMaxTxs (afterOps exec unitMaxTxs cap w ops) =
        ({ afterOps exec unitMaxTxs cap w ops with
            mempool := m'.rollback (Tx.l2 t), current := [],
            sealedUnits := (afterOps exec unitMaxTxs cap w ops).sealedUnits
              ++ [(afterOps exec unitMaxTxs cap w ops).current] },
          some (afterOps exec unitMaxTxs cap w ops).current) := by
      simp only [seqTick, htk, hexec]
    rcases takeNext_cases _ _ _ htk with
      ⟨habs, _, _, _, _⟩ | ⟨u, hu, hnonce, humem, hn, hwm, hl, hpo, hcp⟩
    · exact Tx.noConfusion habs
    · have hut : u = t := by
        injection hu with h
        exact h.symm
      subst hut
      refine ⟨by rw [hred], ?_, by rw [hred], ?_, ?_⟩
      · intro hmem
        have hok := runP_CurrentOK exec unitMaxTxs cap w ops
        have hb := hok (Tx.l2 u) hmem
        simp only [txBelow] at hb
        rw [← hnonce] at hb
        omega
      · rw [hred]
        have he : (m'.rollback (Tx.l2 u)).expectedNonce u.sender = u.nonce := by
          simp only [Mempool.rollback, Mempool.expectedNonce]
          rw [lookupNonce_setNonce_self]
        simp only [Mempool.nextForSender, he]
        simp [Mempool.rollback, firstForSender]
      · intro s hs
        rw [hred]
        simp only [Mempool.senderView, Mempool.rollback, Prod.mk.injEq]
        constructor
        · simp only [Mempool.expectedNonce]
          rw [lookupNonce_setNonce_ne _ _ _ _ hs]
          rw [hn, lookupNonce_setNonce_ne _ _ _ _ hs]
        · have hts : u.sender ≠ s := fun hc => hs hc.symm
          simp only [sendersTxs, if_neg hts]
          rw [hl]
          exact sendersTxs_removeFirst_ne u s hts _

/-- Witness for C6: a two-transaction sender whose second transaction fails
transiently after the first has been executed into the current unit. -/
theorem c6_transient_rollback_force_seal_witness :
    (seqTick (fun tx => if tx = Tx.l2 ⟨0, 1⟩ then ExecClass.transient else ExecClass.success)
        none (afterOps
          (fun tx => if tx = Tx.l2 ⟨0, 1⟩ then ExecClass.transient else ExecClass.success)
          none 10 0
          [POp.feed (Tx.l2 ⟨0, 0⟩), POp.feed (Tx.l2 ⟨0, 1⟩), POp.tick])).2
        = some (afterOps
          (fun tx => if tx = Tx.l2 ⟨0, 1⟩ then ExecClass.transient else ExecClass.success)
          none 10 0
          [POp.feed (Tx.l2 ⟨0, 0⟩), POp.feed (Tx.l2 ⟨0, 1⟩), POp.tick]).current ∧
    Tx.l2 ⟨0, 1⟩ ∉ (afterOps
          (fun tx => if tx = Tx.l2 ⟨0, 1⟩ then ExecClass.transient else ExecClass.success)
          none 10 0
          [POp.feed (Tx.l2 ⟨0, 0⟩), POp.feed (Tx.l2 ⟨0, 1⟩), POp.tick]).current := by
  have h := c6_transient_rollback_force_seal
    (fun tx => if tx = Tx.l2 ⟨0, 1⟩ then ExecClass.transient else ExecClass.success)
    none 10 0 [POp.feed (Tx.l2 ⟨0, 0⟩), POp.feed (Tx.l2 ⟨0, 1⟩), POp.tick] ⟨0, 1⟩
    (by decide) (by decide)
  exact ⟨h.1, h.2.1⟩

/-- Claim C7: with the seal policy configured with unit max tx-count 3 and
no other criterion binding, feeding any 7 transactions through the
sequencer's seal loop yields exactly 3 sealed units of sizes 3, 3 and 1, in
that order. -/
theorem c7_seal_policy_three_three_one {α : Type} (f : α → Footprint)
    (txs : List α) (h : txs.length = 7) :
    (runSeq (cfgTxCount 3) f txs).map List.length = [3, 3, 1] := by
  rcases txs with _ | ⟨a, _ | ⟨b, _ | ⟨c, _ | ⟨d, _ | ⟨e, _ | ⟨g, _ | ⟨i, rest⟩⟩⟩⟩⟩⟩⟩ <;>
    simp only [List.length_cons, List.length_nil] at h <;> try omega
  have hrest : rest = [] := by
    have : rest.length = 0 := by omega
    exact List.eq_nil_of_length_eq_zero this
  subst hrest
  rfl

/-- Witness for C7 at a concrete transaction stream. -/
theorem c7_seal_policy_three_three_one_witness :
    (runSeq (cfgTxCount 3) (fun _ : Nat => Footprint.mk 0 0 0 0)
        [0, 1, 2, 3, 4, 5, 6]).map List.length = [3, 3, 1] :=
  c7_seal_policy_three_three_one (fun _ : Nat => Footprint.mk 0 0 0 0)
    [0, 1, 2, 3, 4, 5, 6] (by decide)

theorem maxOf_mem (l : List Nat) (m : Nat) (h : maxOf l = some m) : m ∈ l := by
  induction l generalizing m with
  | nil => cases h
  | cons x xs ih =>
    simp only [maxOf] at h
    cases hxs : maxOf xs with
    | none =>
      rw [hxs] at h
      cases h
      exact List.mem_cons_self _ _
    | some k =>
      rw [hxs] at h
      cases h
      by_cases hxk : x ≤ k
      · rw [Nat.max_eq_right hxk]
        exact List.mem_cons_of_mem _ (ih k hxs)
      · rw [Nat.max_eq_left (Nat.le_of_not_le hxk)]
        exact List.mem_cons_self _ _

theorem maxOf_eq_some_of (l : List Nat) (m : Nat) (hm : m ∈ l)
    (hall : ∀ x ∈ l, x ≤ m) : maxOf l = some m := by
  induction l generalizing m with
  | nil => cases hm
  | cons x xs ih =>
    simp only [maxOf]
    cases hxs : maxOf xs with
    | none =>
      have hnil : xs = [] := (maxOf_eq_none_iff xs).mp hxs
      subst hnil
      rcases List.mem_singleton.mp hm with rfl
      rfl
    | some k =>
      have hk : k ≤ m := hall k (List.mem_cons_of_mem _ (maxOf_mem xs k hxs))
      have hx : x ≤ m := hall x (List.mem_cons_self _ _)
      rcases List.mem_cons.mp hm with rfl | hmem
      · show some (max m k) = some m
        rw [Nat.max_eq_left hk]
      · have hxm : maxOf xs = some m := ih m hmem (fun y hy => hall y (List.mem_cons_of_mem _ hy))
        rw [hxs] at hxm
        cases hxm
        show some (max x m) = some m
        rw [Nat.max_eq_right hx]

theorem minOf_eq_none_iff (l : List Nat) : minOf l = none ↔ l = [] := by
  cases l with
  | nil => simp [minOf]
  | cons x xs =>
    simp only [minOf]
    cases minOf xs with
    | none => simp
    | some m => simp

theorem minOf_le_of_mem (l : List Nat) (x m : Nat) (hx : x ∈ l)
    (hm : minOf l = some m) : m ≤ x := by
  induction l generalizing m with
  | nil => cases hx
  | cons y ys ih =>
    simp only [minOf] at hm
    cases hys : minOf ys with
    | none =>
      rw [hys] at hm
      cases hm
      have : ys = [] := (minOf_eq_none_iff ys).mp hys
      subst this
      rcases List.mem_singleton.mp hx with rfl
      exact Nat.le_refl _
    | some k =>
      rw [hys] at hm
      cases hm
      rcases List.mem_cons.mp hx with rfl | hmem
      · exact Nat.min_le_left _ _
      · exact Nat.le_trans (Nat.min_le_right _ _) (ih k hmem hys)

theorem minOf_le_maxOf (l : List Nat) (mn mx : Nat) (hmn : minOf l = some mn)
    (hmx : maxOf l = some mx) : mn ≤ mx := by
  cases l with
  | nil => cases hmn
  | cons x xs =>
    have h1 : mn ≤ x := minOf_le_of_mem (x :: xs) x mn (List.mem_cons_self _ _) hmn
    have h2 : x ≤ mx := maxOf_le_of_mem (x :: xs) x mx (List.mem_cons_self _ _) hmx
    exact Nat.le_trans h1 h2

theorem nextNumbers_eq_range' (n : Nat) : ∀ last : Nat,
    nextNumbers n last = List.range' (last + 1) n := by
  induction n with
  | zero => intro last; rfl
  | succ k ih =>
    intro last
    simp only [nextNumbers, List.range']
    rw [ih (last + 1)]

theorem nextNumbers_le (n : Nat) : ∀ last x : Nat, x ∈ nextNumbers n last → x ≤ last + n := by
  induction n with
  | zero =>
    intro last x hx
    cases hx
  | succ k ih =>
    intro last x hx
    rcases List.mem_cons.mp hx with rfl | hmem
    · omega
    · have := ih (last + 1) x hmem
      omega

theorem nextNumbers_last_mem (n : Nat) : ∀ last : Nat, 0 < n →
    last + n ∈ nextNumbers n last := by
  induction n with
  | zero =>
    intro last h
    cases h
  | succ k ih =>
    intro last _
    cases Nat.eq_zero_or_pos k with
    | inl hz =>
      subst hz
      simp [nextNumbers]
    | inr hpos =>
      have hmem := ih (last + 1) hpos
      simp only [nextNumbers]
      apply List.mem_cons_of_mem
      have harith : last + 1 + k = last + (k + 1) := by omega
      rw [← harith]
      exact hmem

theorem maxOf_append_nextNumbers (l : List Nat) (K n : Nat)
    (hK : maxOf l = some K) : maxOf (l ++ nextNumbers n K) = some (K + n) := by
  cases n with
  | zero =>
    simp only [nextNumbers, List.append_nil]
    rw [hK]
    rfl
  | succ j =>
    apply maxOf_eq_some_of
    · exact List.mem_append.mpr (Or.inr (nextNumbers_last_mem (j + 1) K (by omega)))
    · intro x hx
      rcases List.mem_append.mp hx with hmem | hmem
      · have := maxOf_le_of_mem _ x K hmem hK
        omega
      · exact nextNumbers_le (j + 1) K x hmem

theorem sealRun_spec (flags : List Bool) : ∀ (s : DurableStore) (c : SeqCounters),
    (sealRun flags s c).1.map Prod.fst = nextNumbers flags.length c.lastUnit ∧
    (sealRun flags s c).1.filterMap Prod.snd
      = nextNumbers (countTrue flags) c.lastBatch ∧
    (sealRun flags s c).2.1.miniblocks
      = s.miniblocks ++ nextNumbers flags.length c.lastUnit ∧
    (sealRun flags s c).2.1.l1Batches
      = s.l1Batches ++ nextNumbers (countTrue flags) c.lastBatch := by
  induction flags with
  | nil =>
    intro s c
    exact ⟨rfl, rfl, (List.append_nil _).symm, (List.append_nil _).symm⟩
  | cons flag rest ih =>
    intro s c
    cases flag with
    | true =>
      rcases ih { miniblocks := s.miniblocks ++ [c.lastUnit + 1],
                  l1Batches := s.l1Batches ++ [c.lastBatch + 1] }
          ⟨c.lastUnit + 1, c.lastBatch + 1⟩ with ⟨h1, h2, h3, h4⟩
      refine ⟨?_, ?_, ?_, ?_⟩
      · simp only [sealRun, sealStep, List.length_cons, nextNumbers, List.map_cons]
        rw [h1]
      · simp only [sealRun, sealStep, countTrue, nextNumbers, List.filterMap_cons]
        rw [h2]
      · simp only [sealRun, sealStep, List.length_cons, nextNumbers]
        rw [h3, List.append_assoc, List.singleton_append]
      · simp only [sealRun, sealStep, countTrue, nextNumbers]
        rw [h4, List.append_assoc, List.singleton_append]
    | false =>
      rcases ih { s with miniblocks := s.miniblocks ++ [c.lastUnit + 1] }
          { c with lastUnit := c.lastUnit + 1 } with ⟨h1, h2, h3, h4⟩
      refine ⟨?_, ?_, ?_, ?_⟩
      · simp only [sealRun, sealStep, List.length_cons, nextNumbers, List.map_cons]
        rw [h1]
      · simp only [sealRun, sealStep, countTrue, List.filterMap_cons]
        rw [h2]
      · simp only [sealRun, sealStep, List.length_cons, nextNumbers]
        rw [h3, List.append_assoc, List.singleton_append]
      · simp only [sealRun, sealStep, countTrue]
        rw [h4]

/-- Claim C2: ExecutionUnit (miniblock) numbers and batch numbers are
strictly increasing by exactly one per seal with no gaps across a restart.
With durable storage whose maximum persisted miniblock number is K (as
computed by the embedded `get_sealed_miniblock_number` query) and maximum
persisted batch number B (embedded `get_sealed_l1_batch_number`): restart
recovery yields exactly (K, B) from durable storage alone; over any
sequence of seals (each optionally also closing the current batch), the
assigned unit numbers are the consecutive K+1, …, K+n and the batch numbers
assigned at the batch-closing seals are the consecutive B+1, …, B+k; each
is persisted as it is assigned, and the durable maxima afterwards are K+n
and B+k — so a further restart resumes at K+n+1 and B+k+1 with no gap and
no repeat. -/
theorem c2_unit_numbers_gapless_across_restart (s : DurableStore) (K B : Nat)
    (flags : List Bool)
    (hK : get_sealed_miniblock_number s.miniblocks = some K)
    (hB : get_sealed_l1_batch_number s.l1Batches = some B) :
    recoverCounters s = some ⟨K, B⟩ ∧
    (sealRun flags s ⟨K, B⟩).1.map Prod.fst = List.range' (K + 1) flags.length ∧
    (sealRun flags s ⟨K, B⟩).1.filterMap Prod.snd
      = List.range' (B + 1) (countTrue flags) ∧
    get_sealed_miniblock_number (sealRun flags s ⟨K, B⟩).2.1.miniblocks
      = some (K + flags.length) ∧
    get_sealed_l1_batch_number (sealRun flags s ⟨K, B⟩).2.1.l1Batches
      = some (B + countTrue flags) := by
  rcases sealRun_spec flags s ⟨K, B⟩ with ⟨h1, h2, h3, h4⟩
  refine ⟨?_, ?_, ?_, ?_, ?_⟩
  · simp only [recoverCounters, hK, hB]
  · rw [h1]
    exact nextNumbers_eq_range' flags.length K
  · rw [h2]
    exact nextNumbers_eq_range' (countTrue flags) B
  · rw [get_sealed_miniblock_number] at hK ⊢
    rw [h3]
    exact maxOf_append_nextNumbers s.miniblocks K flags.length hK
  · rw [get_sealed_l1_batch_number] at hB ⊢
    rw [h4]
    exact maxOf_append_nextNumbers s.l1Batches B (countTrue flags) hB

/-- Witness for C2 at a concrete durable store: three seals, the first and
third also closing a batch. -/
theorem c2_unit_numbers_gapless_across_restart_witness :
    recoverCounters ⟨[0, 1, 2], [0]⟩ = some ⟨2, 0⟩ ∧
    get_sealed_miniblock_number
        (sealRun [true, false, true] ⟨[0, 1, 2], [0]⟩ ⟨2, 0⟩).2.1.miniblocks
      = some 5 ∧
    get_sealed_l1_batch_number
        (sealRun [true, false, true] ⟨[0, 1, 2], [0]⟩ ⟨2, 0⟩).2.1.l1Batches
      = some 2 := by
  have h := c2_unit_numbers_gapless_across_restart ⟨[0, 1, 2], [0]⟩ 2 0
    [true, false, true] (by decide) (by decide)
  exact ⟨h.1, h.2.2.2.1, h.2.2.2.2⟩

theorem firstRowHash_none_iff (h : Nat) (db : MiniblockTable) :
    firstRowHash h db = none ↔ ∀ r ∈ db, r.hash ≠ h := by
  induction db with
  | nil => simp [firstRowHash]
  | cons r rest ih =>
    simp only [firstRowHash]
    by_cases hr : r.hash = h
    · rw [if_pos hr]
      simp only [List.mem_cons]
      constructor
      · intro hc
        cases hc
      · intro hall
        exact absurd hr (hall r (Or.inl rfl))
    · rw [if_neg hr]
      rw [ih]
      constructor
      · intro hall r' hr'
        rcases List.mem_cons.mp hr' with rfl | hmem
        · exact hr
        · exact hall r' hmem
      · intro hall r' hr'
        exact hall r' (List.mem_cons_of_mem _ hr')

theorem firstRowHash_some_mem (h : Nat) (db : MiniblockTable) (r : MiniblockRow)
    (hf : firstRowHash h db = some r) : r ∈ db ∧ r.hash = h := by
  induction db with
  | nil => cases hf
  | cons r' rest ih =>
    simp only [firstRowHash] at hf
    by_cases hr : r'.hash = h
    · rw [if_pos hr] at hf
      cases hf
      exact ⟨List.mem_cons_self _ _, hr⟩
    · rw [if_neg hr] at hf
      rcases ih hf with ⟨h1, h2⟩
      exact ⟨List.mem_cons_of_mem _ h1, h2⟩

theorem firstRowNumber_none_iff (n : Nat) (db : MiniblockTable) :
    firstRowNumber n db = none ↔ ∀ r ∈ db, r.number ≠ n := by
  induction db with
  | nil => simp [firstRowNumber]
  | cons r rest ih =>
    simp only [firstRowNumber]
    by_cases hr : r.number = n
    · rw [if_pos hr]
      simp only [List.mem_cons]
      constructor
      · intro hc
        cases hc
      · intro hall
        exact absurd hr (hall r (Or.inl rfl))
    · rw [if_neg hr]
      rw [ih]
      constructor
      · intro hall r' hr'
        rcases List.mem_cons.mp hr' with rfl | hmem
        · exact hr
        · exact hall r' hmem
      · intro hall r' hr'
        exact hall r' (List.mem_cons_of_mem _ hr')

theorem firstRowNumber_some_mem (n : Nat) (db : MiniblockTable) (r : MiniblockRow)
    (hf : firstRowNumber n db = some r) : r ∈ db ∧ r.number = n := by
  induction db with
  | nil => cases hf
  | cons r' rest ih =>
    simp only [firstRowNumber] at hf
    by_cases hr : r'.number = n
    · rw [if_pos hr] at hf
      cases hf
      exact ⟨List.mem_cons_self _ _, hr⟩
    · rw [if_neg hr] at hf
      rcases ih hf with ⟨h1, h2⟩
      exact ⟨List.mem_cons_of_mem _ h1, h2⟩

theorem maxNumber_none_iff (db : MiniblockTable) : maxNumber db = none ↔ db = [] := by
  rw [maxNumber, maxOf_eq_none_iff]
  simp

/-- Claim C9: `resolve_block_id` applied to `Earliest` returns
`Some(MiniblockNumber(0))` for every storage state, even an empty miniblocks
table, without consulting storage (the result is the same over any two
tables); and for every other block id it returns `none` exactly when no
matching miniblock row exists. -/
theorem c9_resolve_block_id_earliest (db : MiniblockTable) :
    resolve_block_id db (BlockId.Number BlockNumber.Earliest) = some 0 ∧
    (∀ db' : MiniblockTable,
      resolve_block_id db (BlockId.Number BlockNumber.Earliest)
        = resolve_block_id db' (BlockId.Number BlockNumber.Earliest)) ∧
    ∀ id : BlockId, id ≠ BlockId.Number BlockNumber.Earliest →
      (resolve_block_id db id = none ↔ ¬matchingRowExists db id) := by
  refine ⟨rfl, fun _ => rfl, ?_⟩
  intro id hid
  cases id with
  | Hash h =>
    simp only [resolve_block_id, matchingRowExists]
    cases hf : firstRowHash h db with
    | none =>
      simp only
      rw [firstRowHash_none_iff] at hf
      constructor
      · intro _ hex
        rcases hex with ⟨r, hr, hh⟩
        exact hf r hr hh
      · intro _
        trivial
    | some r =>
      simp only
      rcases firstRowHash_some_mem h db r hf with ⟨h1, h2⟩
      constructor
      · intro hc
        cases hc
      · intro hno
        exact absurd ⟨r, h1, h2⟩ hno
  | Number bn =>
    cases bn with
    | Earliest => exact absurd rfl hid
    | Number n =>
      simp only [resolve_block_id, matchingRowExists]
      cases hf : firstRowNumber n db with
      | none =>
        simp only
        rw [firstRowNumber_none_iff] at hf
        constructor
        · intro _ hex
          rcases hex with ⟨r, hr, hh⟩
          exact hf r hr hh
        · intro _
          trivial
      | some r =>
        simp only
        rcases firstRowNumber_some_mem n db r hf with ⟨h1, h2⟩
        constructor
        · intro hc
          cases hc
        · intro hno
          exact absurd ⟨r, h1, h2⟩ hno
    | Latest =>
      simp only [resolve_block_id, matchingRowExists]
      rw [maxNumber_none_iff]
      simp
    | Committed =>
      simp only [resolve_block_id, matchingRowExists]
      rw [maxNumber_none_iff]
      simp
    | Finalized =>
      simp only [resolve_block_id, matchingRowExists]
      rw [maxNumber_none_iff]
      simp
    | Pending =>
      simp only [resolve_block_id, matchingRowExists]
      cases hmx : maxNumber db with
      | none =>
        simp only
        rw [maxNumber_none_iff] at hmx
        subst hmx
        simp
      | some mv =>
        simp only
        have hne : db ≠ [] := by
          intro hc
          rw [(maxNumber_none_iff db).mpr hc] at hmx
          cases hmx
        constructor
        · intro hc
          cases hc
        · intro hno
          exact absurd hne hno

/-- Witness for C9 at a concrete table and non-Earliest block id. -/
theorem c9_resolve_block_id_earliest_witness :
    resolve_block_id [MiniblockRow.mk 0 7 (some 0)]
        (BlockId.Number BlockNumber.Earliest) = some 0 ∧
    (resolve_block_id [MiniblockRow.mk 0 7 (some 0)] (BlockId.Hash 9) = none ↔
      ¬matchingRowExists [MiniblockRow.mk 0 7 (some 0)] (BlockId.Hash 9)) := by
  have h := c9_resolve_block_id_earliest [MiniblockRow.mk 0 7 (some 0)]
  exact ⟨h.1, h.2.2 (BlockId.Hash 9) (by decide)⟩

/-- Claim C10: `get_miniblock_range_of_l1_batch` never reaches the
`unreachable!` arm (the embedded function always yields an outer `some`):
for every table and batch number the result is `none` exactly when the
batch has no miniblocks, and any returned range (min, max) satisfies
min ≤ max. -/
theorem c10_miniblock_range_defined (db : MiniblockTable) (b : Nat) :
    ∃ r : Option (Nat × Nat),
      get_miniblock_range_of_l1_batch db b = some r ∧
      (r = none ↔ batchMiniblockNumbers db b = []) ∧
      ∀ mn mx : Nat, r = some (mn, mx) → mn ≤ mx := by
  cases hl : batchMiniblockNumbers db b with
  | nil =>
    refine ⟨none, ?_, ?_, ?_⟩
    · simp [get_miniblock_range_of_l1_batch, hl, minOf, maxOf]
    · simp
    · intro mn mx hc
      cases hc
  | cons x xs =>
    have hmn : ∃ mn, minOf (x :: xs) = some mn := by
      simp only [minOf]
      cases minOf xs with
      | none => exact ⟨x, rfl⟩
      | some k => exact ⟨min x k, rfl⟩
    have hmx : ∃ mx, maxOf (x :: xs) = some mx := by
      simp only [maxOf]
      cases maxOf xs with
      | none => exact ⟨x, rfl⟩
      | some k => exact ⟨max x k, rfl⟩
    rcases hmn with ⟨mn, hmn⟩
    rcases hmx with ⟨mx, hmx⟩
    refine ⟨some (mn, mx), ?_, ?_, ?_⟩
    · simp [get_miniblock_range_of_l1_batch, hl, hmn, hmx]
    · constructor
      · intro hc
        cases hc
      · intro hc
        cases hc
    · intro mn' mx' heq
      injection heq with hpair
      injection hpair with h1 h2
      subst h1
      subst h2
      exact minOf_le_maxOf (x :: xs) mn mx hmn hmx

end ZkSyncCore
